import Mathlib

set_option maxRecDepth 1000000

/-!
Verification of the planar Delaunay triangulator (`sdf/delaunay.go`).

The Go code is shallowly embedded over exact rationals (`ℚ` in place of
`float64`); machine-float rounding is not modelled, matching the spec's
real-number description of the arithmetic with a fixed tolerance.
Go's panicking slice indexing is rendered with `List.getD` (default on
out-of-range access); all reachable accesses are in range.  Go's total
float division is rendered with `ℚ` division (division by zero yields 0
instead of an IEEE infinity; every statement proved about denominators is
convention-independent).
-/

namespace Sdfx

/-- Emulation of the repository's 2D float vector `V2`, with rational
components in place of `float64`. -/
structure V2 where
  x : ℚ
  y : ℚ
deriving DecidableEq, Repr, Inhabited

/-- Componentwise vector addition (the repository's `V2.Add`).
Modelled from the spec: the three super-triangle points are the center
plus fixed offsets. -/
def V2.add (a b : V2) : V2 := ⟨a.x + b.x, a.y + b.y⟩

/-- Larger of the two components (the repository's `V2.MaxComponent`).
Modelled from the spec: §4.1 reads `Size().MaxComponent()` as
"max(box width, box height)"; box sizes are nonnegative, so this agrees
with the spec's `max(|x|,|y|)` reading wherever the value is used. -/
def V2.maxComponent (a : V2) : ℚ := max a.x a.y

/-- Fixed numerical tolerance.  Modelled from the spec: the "fixed
numerical tolerance" used by all circumcircle comparisons; the repository
sets `EPSILON = 1e-9`. -/
def EPSILON : ℚ := 1 / 1000000000

/-- Componentwise minimum of a point set (the repository's `V2Set.Min`).
Modelled from the spec: lower corner of the axis-aligned bounding box of
all points. -/
def v2SetMin (s : List V2) : V2 :=
  s.foldl (fun a b => ⟨min a.x b.x, min a.y b.y⟩) (s.headD default)

/-- Componentwise maximum of a point set (the repository's `V2Set.Max`).
Modelled from the spec: upper corner of the axis-aligned bounding box of
all points. -/
def v2SetMax (s : List V2) : V2 :=
  s.foldl (fun a b => ⟨max a.x b.x, max a.y b.y⟩) (s.headD default)

/-- Axis-aligned box given by two corners (the repository's `Box2`). -/
structure Box2 where
  min : V2
  max : V2
deriving DecidableEq, Repr

/-- Center of a box (the repository's `Box2.Center`).  Modelled from the
spec: center `c` of the axis-aligned bounding box. -/
def Box2.center (b : Box2) : V2 := ⟨(b.min.x + b.max.x) / 2, (b.min.y + b.max.y) / 2⟩

/-- Size of a box (the repository's `Box2.Size`).  Modelled from the
spec: box width and height. -/
def Box2.size (b : Box2) : V2 := ⟨b.max.x - b.min.x, b.max.y - b.min.y⟩

/-- Sort points by ascending x (the repository's
`sort.Sort(V2SetByX(vs))`).  Modelled from the spec: "sorted by ascending
x (ties broken arbitrarily)"; rendered by insertion sort on the x key. -/
def sortByX (vs : List V2) : List V2 :=
  List.insertionSort (fun a b => a.x ≤ b.x) vs

instance : IsTotal V2 (fun a b => a.x ≤ b.x) := ⟨fun a b => le_total a.x b.x⟩

instance : IsTrans V2 (fun a b => a.x ≤ b.x) := ⟨fun _ _ _ => le_trans⟩

/-- Triangle referencing a list of vertices (`TriangleI`, Go `[3]int`);
indices are integers as in Go. -/
structure TriangleI where
  i0 : ℤ
  i1 : ℤ
  i2 : ℤ
deriving DecidableEq, Repr, Inhabited

/-- Edge referencing a list of vertices (`EdgeI`, Go `[2]int`). -/
structure EdgeI where
  e0 : ℤ
  e1 : ℤ
deriving DecidableEq, Repr, Inhabited

/-- Triangle of three 2D points (the repository's `Triangle2`, `[3]V2`). -/
structure Triangle2 where
  p0 : V2
  p1 : V2
  p2 : V2
deriving DecidableEq, Repr, Inhabited

/-- Embedding of `V2Set.SuperTriangle`.  The Go source declares outer
`var p V2; var k float64` (zero values) and, in the one-point branch,
assigns with `p := s[0]` and `k := ...`, i.e. `:=` declares NEW inner
locals shadowing the outer `p`, `k`; the computed values are discarded at
the end of the branch, leaving the outer zero values in force.  The
embedding reproduces this faithfully: the inner bindings are computed and
unused. -/
def SuperTriangle (s : List V2) : Except String (List V2) :=
  if s.length = 0 then .error "no vertices"
  else
    let p : V2 := ⟨0, 0⟩
    let k : ℚ := 0
    let pk : V2 × ℚ :=
      if s.length = 1 then
        let pInner := s.getD 0 default
        let kInner := pInner.maxComponent * (125 / 1000)
        let _kInner2 := if kInner = 0 then (1 : ℚ) else kInner
        (p, k)
      else
        let b : Box2 := ⟨v2SetMin s, v2SetMax s⟩
        (b.center, b.size.maxComponent * 2)
    let p := pk.1
    let k := pk.2
    .ok [p.add ⟨-k, -k⟩, p.add ⟨0, k⟩, p.add ⟨k, -k⟩]

/-- Embedding of `Triangle2.Circumcenter`: branch on which perpendicular
bisectors are usable (non-near-horizontal edges), solve for the center. -/
def Circumcenter (t : Triangle2) : Except String V2 :=
  let x1 := t.p0.x
  let x2 := t.p1.x
  let x3 := t.p2.x
  let y1 := t.p0.y
  let y2 := t.p1.y
  let y3 := t.p2.y
  let fabsy1y2 := |y1 - y2|
  let fabsy2y3 := |y2 - y3|
  if fabsy1y2 < EPSILON ∧ fabsy2y3 < EPSILON then
    .error "coincident points"
  else if fabsy1y2 < EPSILON then
    let m2 := -(x3 - x2) / (y3 - y2)
    let mx2 := (x2 + x3) / 2
    let my2 := (y2 + y3) / 2
    let xc := (x2 + x1) / 2
    let yc := m2 * (xc - mx2) + my2
    .ok ⟨xc, yc⟩
  else if fabsy2y3 < EPSILON then
    let m1 := -(x2 - x1) / (y2 - y1)
    let mx1 := (x1 + x2) / 2
    let my1 := (y1 + y2) / 2
    let xc := (x3 + x2) / 2
    let yc := m1 * (xc - mx1) + my1
    .ok ⟨xc, yc⟩
  else
    let m1 := -(x2 - x1) / (y2 - y1)
    let m2 := -(x3 - x2) / (y3 - y2)
    let mx1 := (x1 + x2) / 2
    let mx2 := (x2 + x3) / 2
    let my1 := (y1 + y2) / 2
    let my2 := (y2 + y3) / 2
    let xc := (m1 * mx1 - m2 * mx2 + my2 - my1) / (m1 - m2)
    let yc := if fabsy1y2 > fabsy2y3 then m1 * (xc - mx1) + my1
              else m2 * (xc - mx2) + my2
    .ok ⟨xc, yc⟩

/-- Embedding of `Triangle2.InCircumcircle`: returns `(inside, done)`;
a degenerate circumcenter is absorbed as `(false, true)` (triangle
closed). -/
def InCircumcircle (t : Triangle2) (p : V2) : Bool × Bool :=
  match Circumcenter t with
  | .error _ => (false, true)
  | .ok c =>
    let dx0 := t.p0.x - c.x
    let dy0 := t.p0.y - c.y
    let r2 := dx0 * dx0 + dy0 * dy0
    let dx := p.x - c.x
    let dy := p.y - c.y
    let d2 := dx * dx + dy * dy
    (decide (d2 - r2 ≤ EPSILON), decide (dx > 0 ∧ dx * dx > r2))

/-- Look up a point of the (extended) vertex list by an integer triangle
index; Go's panicking `vs[i]` is rendered with a defaulted lookup (all
reachable indices are in range). -/
def vAt (vs : List V2) (i : ℤ) : V2 := vs.getD i.toNat default

/-- Embedding of the cavity-scan loop of `Delaunay2d` (lines 181-202):
walk the active triangles, retire `done` ones, test the rest against the
new point `v`; on `inside`, buffer the triangle's three directed edges
and swap-remove it (copy in the tail, re-examine slot `j`).
Returns the updated `(ts, done, nt, es)`.  Every iteration decreases
`nt - j` by exactly one, so the loop is rendered by structural recursion
on a fuel that call sites set to the initial `nt` (an exact upper bound
on the iteration count); the fuel never runs out before `j ≥ nt`. -/
def scanLoop (vs : List V2) (v : V2) : ℕ → List TriangleI → List Bool →
    ℕ → ℕ → List EdgeI → List TriangleI × List Bool × ℕ × List EdgeI
  | 0, ts, done, nt, _, es => (ts, done, nt, es)
  | fuel + 1, ts, done, nt, j, es =>
    if j < nt then
      if done.getD j false then
        scanLoop vs v fuel ts done nt (j + 1) es
      else
        let tj := ts.getD j default
        let t : Triangle2 := ⟨vAt vs tj.i0, vAt vs tj.i1, vAt vs tj.i2⟩
        let r := InCircumcircle t v
        let done1 := done.set j r.2
        if r.1 then
          let es1 := es ++ [⟨tj.i0, tj.i1⟩, ⟨tj.i1, tj.i2⟩, ⟨tj.i2, tj.i0⟩]
          let ts1 := ts.set j (ts.getD (nt - 1) default)
          let done2 := done1.set j (done1.getD (nt - 1) false)
          scanLoop vs v fuel ts1 done2 (nt - 1) j es1
        else
          scanLoop vs v fuel ts done1 nt (j + 1) es
    else
      (ts, done, nt, es)

/-- Body of one inner-loop comparison (lines 212-220): a reverse pair,
then (re-reading the possibly updated slots) a duplicate pair, is
overwritten with the sentinel `(-1,-1)` on both sides. -/
def cancelStep (es : List EdgeI) (j k : ℕ) : List EdgeI :=
  let ej := es.getD j default
  let ek := es.getD k default
  let es1 :=
    if ej.e0 = ek.e1 ∧ ej.e1 = ek.e0 then
      (es.set j ⟨-1, -1⟩).set k ⟨-1, -1⟩
    else es
  let ej1 := es1.getD j default
  let ek1 := es1.getD k default
  if ej1.e0 = ek1.e0 ∧ ej1.e1 = ek1.e1 then
    (es1.set j ⟨-1, -1⟩).set k ⟨-1, -1⟩
  else es1

/-- Embedding of the inner edge-cancellation loop (`for k := j+1; ...`,
lines 211-221): run one comparison step per later slot `k`.  Structural
recursion on a fuel set to `es.length` at the call site, an upper bound
on the remaining iterations `es.length - k`. -/
def cancelInner (j : ℕ) : ℕ → List EdgeI → ℕ → List EdgeI
  | 0, es, _ => es
  | fuel + 1, es, k =>
    if k < es.length then cancelInner j fuel (cancelStep es j k) (k + 1)
    else es

/-- Embedding of the outer edge-cancellation loop (`for j := 0;
j < len(es)-1; ...`, lines 210-222).  Structural recursion on a fuel set
to `es.length` at the call site. -/
def cancelOuter : ℕ → List EdgeI → ℕ → List EdgeI
  | 0, es, _ => es
  | fuel + 1, es, j =>
    if j + 1 < es.length then
      cancelOuter fuel (cancelInner j es.length es (j + 1)) (j + 1)
    else es

/-- Embedding of one iteration of the per-point insertion loop of
`Delaunay2d` (lines 172-233): scan the cavity, truncate the triangle and
done lists to the surviving prefix, cancel interior edges pairwise and
join each surviving edge with the new point `i`. -/
def insertPoint (vs : List V2) (st : List TriangleI × List Bool) (i : ℕ) :
    List TriangleI × List Bool :=
  let v := vs.getD i default
  let nt0 := st.1.length
  let r := scanLoop vs v nt0 st.1 st.2 nt0 0 []
  let ts1 := r.1.take r.2.2.1
  let done1 := r.2.1.take r.2.2.1
  let es1 := cancelOuter r.2.2.2.length r.2.2.2 0
  es1.foldl
    (fun st2 e =>
      if e.e0 < 0 ∨ e.e1 < 0 then st2
      else (st2.1 ++ [⟨e.e0, e.e1, (i : ℤ)⟩], st2.2 ++ [false]))
    (ts1, done1)

/-- Embedding of the finalization loop of `Delaunay2d` (lines 237-246):
swap-remove every triangle still referencing a super-triangle vertex
(index `≥ n`).  Structural recursion on a fuel set to the initial `nt`
(an exact bound on the iteration count, as for `scanLoop`). -/
def finalLoop (n : ℕ) : ℕ → List TriangleI → ℕ → ℕ → List TriangleI × ℕ
  | 0, ts, nt, _ => (ts, nt)
  | fuel + 1, ts, nt, j =>
    if j < nt then
      let t := ts.getD j default
      if t.i0 ≥ (n : ℤ) ∨ t.i1 ≥ (n : ℤ) ∨ t.i2 ≥ (n : ℤ) then
        finalLoop n fuel (ts.set j (ts.getD (nt - 1) default)) (nt - 1) j
      else
        finalLoop n fuel ts nt (j + 1)
    else (ts, nt)

/-- Core of `Delaunay2d` after the x-sort: append the super-triangle
vertices, seed the active set with the super triangle, insert the `n`
input points in order, then strip super-linked triangles. -/
def delaunayCore (svs : List V2) (t : List V2) : List TriangleI :=
  let n := svs.length
  let vs := svs ++ t
  let ts0 : List TriangleI := [⟨(n : ℤ), (n : ℤ) + 1, (n : ℤ) + 2⟩]
  let done0 : List Bool := [false]
  let st := (List.range n).foldl (fun st i => insertPoint vs st i) (ts0, done0)
  let r := finalLoop n st.1.length st.1 st.1.length 0
  r.1.take r.2

/-- Embedding of `V2Set.Delaunay2d`: sort by x, build the super
triangle (the only failure point, empty input), run the incremental
insertion and finalization. -/
def Delaunay2d (vs0 : List V2) : Except String (List TriangleI) :=
  let svs := sortByX vs0
  match SuperTriangle svs with
  | .error e => .error e
  | .ok t => .ok (delaunayCore svs t)

/-! Claim-level vocabulary: predicates used to state the specification's
properties about the embedded program. -/

/-- Squared euclidean distance between two points. -/
def dist2 (p q : V2) : ℚ := (p.x - q.x) ^ 2 + (p.y - q.y) ^ 2

/-- The circle of center `q` and squared radius `r2` passes through the
three vertices of the triangle: the defining property of a circumcircle. -/
def IsCircumcircle (t : Triangle2) (q : V2) (r2 : ℚ) : Prop :=
  dist2 t.p0 q = r2 ∧ dist2 t.p1 q = r2 ∧ dist2 t.p2 q = r2

/-- The point lies strictly inside the circle of center `q` and squared
radius `r2`, beyond the fixed numerical tolerance. -/
def StrictlyInsideCC (p q : V2) (r2 : ℚ) : Prop :=
  dist2 p q < r2 - EPSILON

/-- Cross product of `a - o` and `b - o` (twice the signed area of
triangle `o a b`). -/
def cross2 (o a b : V2) : ℚ :=
  (a.x - o.x) * (b.y - o.y) - (a.y - o.y) * (b.x - o.x)

/-- Membership of `p` in the closed triangle `a b c`: the three edge
cross products have a common sign. -/
def PointInTriangle (a b c p : V2) : Prop :=
  (cross2 a b p ≤ 0 ∧ cross2 b c p ≤ 0 ∧ cross2 c a p ≤ 0) ∨
  (0 ≤ cross2 a b p ∧ 0 ≤ cross2 b c p ∧ 0 ≤ cross2 c a p)

/-- The denominators `Circumcenter` divides by on its non-error path,
branch by branch (lines 83-108): the near-horizontal branches divide by
one bisector slope denominator; the general branch divides by both and
by the slope difference `m1 - m2`. -/
def circumcenterDenoms (t : Triangle2) : List ℚ :=
  let x1 := t.p0.x
  let x2 := t.p1.x
  let x3 := t.p2.x
  let y1 := t.p0.y
  let y2 := t.p1.y
  let y3 := t.p2.y
  if |y1 - y2| < EPSILON ∧ |y2 - y3| < EPSILON then []
  else if |y1 - y2| < EPSILON then [y3 - y2]
  else if |y2 - y3| < EPSILON then [y2 - y1]
  else [y2 - y1, y3 - y2, -(x2 - x1) / (y2 - y1) - -(x3 - x2) / (y3 - y2)]

/-- The perpendicular-bisector denominators of the taken branch (the
`circumcenterDenoms` list without the general branch's `m1 - m2`). -/
def circumcenterYDenoms (t : Triangle2) : List ℚ :=
  let y1 := t.p0.y
  let y2 := t.p1.y
  let y3 := t.p2.y
  if |y1 - y2| < EPSILON ∧ |y2 - y3| < EPSILON then []
  else if |y1 - y2| < EPSILON then [y3 - y2]
  else if |y2 - y3| < EPSILON then [y2 - y1]
  else [y2 - y1, y3 - y2]

/-- Two buffered edges match when they are exact reverse pairs or exact
duplicate pairs (the two cancellation conditions of lines 212 and 217). -/
def matchEdges (e f : EdgeI) : Prop :=
  (e.e0 = f.e1 ∧ e.e1 = f.e0) ∨ (e.e0 = f.e0 ∧ e.e1 = f.e1)

/-- Center of the bounding box used by the multi-point branch of
`SuperTriangle` (the spec's `c`). -/
def superCenter (s : List V2) : V2 := Box2.center ⟨v2SetMin s, v2SetMax s⟩

/-- Half-extent used by the multi-point branch of `SuperTriangle` (the
spec's `k = 2 × max(box width, box height)`). -/
def superK (s : List V2) : ℚ :=
  (Box2.size ⟨v2SetMin s, v2SetMax s⟩).maxComponent * 2

/-- Index validity during insertion step `i` of an `n`-point run: a
vertex index denotes an already-inserted input point (`0 ≤ c < i`) or a
super-triangle vertex (`n ≤ c < n+3`). -/
def IdxOK (n i : ℕ) (c : ℤ) : Prop :=
  (0 ≤ c ∧ c < (i : ℤ)) ∨ ((n : ℤ) ≤ c ∧ c < (n : ℤ) + 3)

/-- Triangle validity during insertion step `i`: pairwise-distinct
vertex indices, each valid. -/
def TriOK (n i : ℕ) (t : TriangleI) : Prop :=
  t.i0 ≠ t.i1 ∧ t.i1 ≠ t.i2 ∧ t.i0 ≠ t.i2 ∧
  IdxOK n i t.i0 ∧ IdxOK n i t.i1 ∧ IdxOK n i t.i2

/-- Edge validity during insertion step `i`: distinct valid endpoints. -/
def EdgeOK (n i : ℕ) (e : EdgeI) : Prop :=
  e.e0 ≠ e.e1 ∧ IdxOK n i e.e0 ∧ IdxOK n i e.e1

/-- A triangle referencing a super-triangle vertex (the finalization
removal test of line 240). -/
def BadTri (n : ℕ) (t : TriangleI) : Prop :=
  t.i0 ≥ (n : ℤ) ∨ t.i1 ≥ (n : ℤ) ∨ t.i2 ≥ (n : ℤ)

/-- The claim's Delaunay property for one input: for every triangle of a
successful run and every input position that is not one of its vertices,
the point does not lie strictly inside the triangle's circumcircle,
within the fixed tolerance.  Positions and vertex coordinates refer to
the x-sorted sequence the triangulation works on. -/
def DelaunayHolds (vs0 : List V2) : Prop :=
  ∀ ts, Delaunay2d vs0 = .ok ts →
  ∀ t ∈ ts, ∀ m : ℕ, m < (sortByX vs0).length →
    (m : ℤ) ≠ t.i0 → (m : ℤ) ≠ t.i1 → (m : ℤ) ≠ t.i2 →
    ∀ q r2, IsCircumcircle ⟨vAt (sortByX vs0) t.i0, vAt (sortByX vs0) t.i1,
      vAt (sortByX vs0) t.i2⟩ q r2 →
    ¬ StrictlyInsideCC ((sortByX vs0).getD m default) q r2

/-- Input exhibiting a flat surviving triangle: the four left points
force the sliver `(0,0), (1, 5e-10), (1 + 5e-10, 0)` into the mesh; its
y-spread is below `EPSILON`, so every circumcircle test on it reports
`coincident points` and it is retired as closed, although its genuine
circumcircle (radius about `0.707`) strictly contains the later input
point `(1.1, -0.8)`. -/
def flatCavityInput : List V2 :=
  [⟨0, 0⟩, ⟨1/2, -3⟩, ⟨1, 1/2000000000⟩, ⟨1 + 1/2000000000, 0⟩, ⟨11/10, -4/5⟩]

/-- Exact circumcenter of the surviving flat triangle of
`flatCavityInput`. -/
def flatCavityCenter : V2 :=
  ⟨2000000001/4000000000, -1999999999/4000000000⟩

/-- Exact squared circumradius of the surviving flat triangle of
`flatCavityInput`. -/
def flatCavityR2 : ℚ := 4000000000000000001/8000000000000000000

/-! Helper lemmas. -/

/-- Length is preserved by one comparison step. -/
theorem cancelStep_length (es : List EdgeI) (j k : ℕ) :
    (cancelStep es j k).length = es.length := by
  unfold cancelStep
  dsimp only
  split <;> split <;> simp [List.length_set]

/-- Length is preserved by the inner cancellation loop. -/
theorem cancelInner_length (j : ℕ) (fuel : ℕ) (es : List EdgeI) (k : ℕ) :
    (cancelInner j fuel es k).length = es.length := by
  induction fuel generalizing es k with
  | zero => rfl
  | succ fuel ih =>
    rw [cancelInner]
    split
    · rw [ih, cancelStep_length]
    · rfl

/-- Sorting does not change the number of points. -/
theorem sortByX_length (vs : List V2) : (sortByX vs).length = vs.length := by
  unfold sortByX
  exact (List.perm_insertionSort (fun a b => a.x ≤ b.x) vs).length_eq

/-- A nonempty point set has a super triangle. -/
theorem superTriangle_ok (s : List V2) (h : s ≠ []) :
    ∃ pts, SuperTriangle s = .ok pts := by
  unfold SuperTriangle
  rw [if_neg (by simpa using h)]
  exact ⟨_, rfl⟩

/-! Claim theorems. -/

/-- C2.  The single-point branch of `SuperTriangle` computes the
half-extent into shadowing locals and discards it (Go `:=` inside the
`if` block), so for every one-point input the function returns three
copies of the origin: a zero-extent "triangle" centered at `(0,0)`, not
a triangle centered on the input point with half-extent
`max(|x|,|y|) * 0.125`.  This theorem evaluates the code at the spec's
failing input family; the claim correctly describes the intended
behavior, the code is the slip (spec §9 flags it as a source defect). -/
theorem superTriangle_single_point_collapses (p : V2) :
    SuperTriangle [p] = .ok [⟨0, 0⟩, ⟨0, 0⟩, ⟨0, 0⟩] := by
  with_unfolding_all rfl

/-- C7.  On the single input point `(5,5)` the triangulation returns an
empty triangle list and no error: the collapsed super triangle makes
every circumcircle test degenerate, the degenerate test is absorbed, and
finalization strips the super triangle. -/
theorem delaunay2d_single_point :
    Delaunay2d [⟨5, 5⟩] = .ok [] := by
  with_unfolding_all rfl

/-- C3.  The triangulation fails exactly on the empty input: the empty
sequence yields the `no vertices` error, every nonempty sequence yields
a triangle list, and a degenerate circumcenter computation inside
`InCircumcircle` is absorbed as `(inside, done) = (false, true)`
(triangle closed), never surfacing as a top-level failure. -/
theorem delaunay2d_error_contract :
    (Delaunay2d [] = .error "no vertices") ∧
    (∀ vs : List V2, vs ≠ [] → ∃ ts, Delaunay2d vs = .ok ts) ∧
    (∀ (t : Triangle2) (p : V2) (e : String),
      Circumcenter t = .error e → InCircumcircle t p = (false, true)) := by
  refine ⟨by with_unfolding_all rfl, ?_, ?_⟩
  · intro vs h
    have hs : sortByX vs ≠ [] := by
      intro hnil
      apply h
      have := sortByX_length vs
      rw [hnil] at this
      exact List.length_eq_zero.mp this.symm
    obtain ⟨pts, hpts⟩ := superTriangle_ok (sortByX vs) hs
    exact ⟨_, by unfold Delaunay2d; dsimp only; rw [hpts]⟩
  · intro t p e he
    unfold InCircumcircle
    rw [he]

/-- C3 witness: concrete nonempty input succeeds. -/
theorem delaunay2d_error_contract_witness :
    ∃ ts, Delaunay2d [⟨5, 5⟩] = .ok ts :=
  delaunay2d_error_contract.2.1 [⟨5, 5⟩] (by simp)

/-- C9 counterexample.  The collinear triangle `(0,0), (1,1), (2,2)` has
non-near-horizontal edges, so it passes the coincident-points guard and
`Circumcenter` returns without error, yet the general-branch denominator
`m1 - m2` it divides by is zero: the claimed division safety fails. -/
theorem circumcenter_denominator_zero :
    (∃ c, Circumcenter ⟨⟨0, 0⟩, ⟨1, 1⟩, ⟨2, 2⟩⟩ = .ok c) ∧
    (0 : ℚ) ∈ circumcenterDenoms ⟨⟨0, 0⟩, ⟨1, 1⟩, ⟨2, 2⟩⟩ := by
  constructor
  · exact ⟨_, by with_unfolding_all rfl⟩
  · have h : circumcenterDenoms ⟨⟨0, 0⟩, ⟨1, 1⟩, ⟨2, 2⟩⟩ = [1, 1, 0] := by
      with_unfolding_all rfl
    rw [h]
    simp

/-- C9 amended.  On every non-error return the perpendicular-bisector
denominators of the taken branch — `(y2-y1)` and `(y3-y2)` where used —
are nonzero, each being guarded by an `EPSILON` comparison; only the
general branch's extra denominator `m1 - m2` can vanish (for collinear
triangles with non-near-horizontal edges). -/
theorem circumcenter_ydenoms_nonzero (t : Triangle2) :
    ∀ d ∈ circumcenterYDenoms t, d ≠ 0 := by
  intro d hd
  have heps : (0 : ℚ) < EPSILON := by norm_num [EPSILON]
  unfold circumcenterYDenoms at hd
  dsimp only at hd
  by_cases h1 : |t.p0.y - t.p1.y| < EPSILON ∧ |t.p1.y - t.p2.y| < EPSILON
  · rw [if_pos h1] at hd
    simp at hd
  · rw [if_neg h1] at hd
    by_cases h2 : |t.p0.y - t.p1.y| < EPSILON
    · rw [if_pos h2] at hd
      have h3 : ¬ |t.p1.y - t.p2.y| < EPSILON := fun hc => h1 ⟨h2, hc⟩
      simp only [List.mem_singleton] at hd
      subst hd
      intro h0
      apply h3
      rw [show t.p1.y - t.p2.y = -(t.p2.y - t.p1.y) by ring, abs_neg, h0]
      simpa using heps
    · rw [if_neg h2] at hd
      by_cases h3 : |t.p1.y - t.p2.y| < EPSILON
      · rw [if_pos h3] at hd
        simp only [List.mem_singleton] at hd
        subst hd
        intro h0
        apply h2
        rw [show t.p0.y - t.p1.y = -(t.p1.y - t.p0.y) by ring, abs_neg, h0]
        simpa using heps
      · rw [if_neg h3] at hd
        simp only [List.mem_cons, List.not_mem_nil, or_false] at hd
        rcases hd with hd | hd <;> subst hd <;> intro h0
        · apply h2
          rw [show t.p0.y - t.p1.y = -(t.p1.y - t.p0.y) by ring, abs_neg, h0]
          simpa using heps
        · apply h3
          rw [show t.p1.y - t.p2.y = -(t.p2.y - t.p1.y) by ring, abs_neg, h0]
          simpa using heps

/-- C9 amended witness: the branch denominators of a concrete
non-degenerate triangle are nonzero. -/
theorem circumcenter_ydenoms_nonzero_witness :
    (1 : ℚ) ∈ circumcenterYDenoms ⟨⟨0, 0⟩, ⟨1, 1⟩, ⟨2, 2⟩⟩ ∧ (1 : ℚ) ≠ 0 := by
  have h : circumcenterYDenoms ⟨⟨0, 0⟩, ⟨1, 1⟩, ⟨2, 2⟩⟩ = [1, 1] := by
    with_unfolding_all rfl
  refine ⟨by rw [h]; simp, ?_⟩
  exact circumcenter_ydenoms_nonzero ⟨⟨0, 0⟩, ⟨1, 1⟩, ⟨2, 2⟩⟩ 1 (by rw [h]; simp)

/-- C8.  The point sequence the triangulation works on is the input
sorted by ascending x — a permutation of the caller's points — and the
returned triangle indices are computed against that sorted order (the
core runs on `sortByX vs`, whose positions the indices reference), not
against the pre-call order. -/
theorem delaunay2d_sorted_input (vs : List V2) :
    (sortByX vs).Perm vs ∧
    List.Sorted (fun a b => a.x ≤ b.x) (sortByX vs) ∧
    Delaunay2d vs = (match SuperTriangle (sortByX vs) with
      | .error e => .error e
      | .ok t => .ok (delaunayCore (sortByX vs) t)) :=
  ⟨List.perm_insertionSort _ vs, List.sorted_insertionSort _ vs, rfl⟩

/-- Minimum fold bound: the running componentwise minimum is below the
initial accumulator and every list element. -/
theorem foldl_min_bound (l : List V2) (init : V2) :
    ((l.foldl (fun a b => V2.mk (min a.x b.x) (min a.y b.y)) init).x ≤ init.x ∧
     (l.foldl (fun a b => V2.mk (min a.x b.x) (min a.y b.y)) init).y ≤ init.y) ∧
    ∀ p ∈ l, (l.foldl (fun a b => V2.mk (min a.x b.x) (min a.y b.y)) init).x ≤ p.x ∧
      (l.foldl (fun a b => V2.mk (min a.x b.x) (min a.y b.y)) init).y ≤ p.y := by
  induction l generalizing init with
  | nil => exact ⟨⟨le_refl _, le_refl _⟩, by simp⟩
  | cons a l ih =>
    simp only [List.foldl_cons]
    obtain ⟨⟨hix, hiy⟩, hall⟩ := ih ⟨min init.x a.x, min init.y a.y⟩
    refine ⟨⟨le_trans hix (min_le_left _ _), le_trans hiy (min_le_left _ _)⟩, ?_⟩
    intro p hp
    rcases List.mem_cons.mp hp with rfl | hp
    · exact ⟨le_trans hix (min_le_right _ _), le_trans hiy (min_le_right _ _)⟩
    · exact hall p hp

/-- Maximum fold bound: the running componentwise maximum is above the
initial accumulator and every list element. -/
theorem foldl_max_bound (l : List V2) (init : V2) :
    (init.x ≤ (l.foldl (fun a b => V2.mk (max a.x b.x) (max a.y b.y)) init).x ∧
     init.y ≤ (l.foldl (fun a b => V2.mk (max a.x b.x) (max a.y b.y)) init).y) ∧
    ∀ p ∈ l, p.x ≤ (l.foldl (fun a b => V2.mk (max a.x b.x) (max a.y b.y)) init).x ∧
      p.y ≤ (l.foldl (fun a b => V2.mk (max a.x b.x) (max a.y b.y)) init).y := by
  induction l generalizing init with
  | nil => exact ⟨⟨le_refl _, le_refl _⟩, by simp⟩
  | cons a l ih =>
    simp only [List.foldl_cons]
    obtain ⟨⟨hix, hiy⟩, hall⟩ := ih ⟨max init.x a.x, max init.y a.y⟩
    refine ⟨⟨le_trans (le_max_left _ _) hix, le_trans (le_max_left _ _) hiy⟩, ?_⟩
    intro p hp
    rcases List.mem_cons.mp hp with rfl | hp
    · exact ⟨le_trans (le_max_right _ _) hix, le_trans (le_max_right _ _) hiy⟩
    · exact hall p hp

/-- Every point is componentwise bounded below by `v2SetMin`. -/
theorem v2SetMin_le (s : List V2) (p : V2) (hp : p ∈ s) :
    (v2SetMin s).x ≤ p.x ∧ (v2SetMin s).y ≤ p.y :=
  (foldl_min_bound s (s.headD default)).2 p hp

/-- Every point is componentwise bounded above by `v2SetMax`. -/
theorem le_v2SetMax (s : List V2) (p : V2) (hp : p ∈ s) :
    p.x ≤ (v2SetMax s).x ∧ p.y ≤ (v2SetMax s).y :=
  (foldl_max_bound s (s.headD default)).2 p hp

/-- Cross-product formulas for the super-triangle vertices: each edge
test factors as `k` times a linear form. -/
theorem superTriangle_cross_formulas (c : V2) (k : ℚ) (p : V2) :
    cross2 (c.add ⟨-k, -k⟩) (c.add ⟨0, k⟩) p
      = k * ((p.y - c.y) - 2 * (p.x - c.x) - k) ∧
    cross2 (c.add ⟨0, k⟩) (c.add ⟨k, -k⟩) p
      = k * ((p.y - c.y) + 2 * (p.x - c.x) - k) ∧
    cross2 (c.add ⟨k, -k⟩) (c.add ⟨-k, -k⟩) p
      = -(2 * k) * ((p.y - c.y) + k) := by
  refine ⟨?_, ?_, ?_⟩ <;> (simp only [cross2, V2.add]; ring)

/-- C4.  For every input of at least two points, `SuperTriangle` returns
exactly the three points `c+(-k,-k)`, `c+(0,k)`, `c+(k,-k)` — where `c`
is the bounding-box center and `k` twice the larger box dimension — and
the resulting triangle contains every input point. -/
theorem superTriangle_encloses (s : List V2) (h : 2 ≤ s.length) :
    SuperTriangle s = .ok
      [(superCenter s).add ⟨-(superK s), -(superK s)⟩,
       (superCenter s).add ⟨0, superK s⟩,
       (superCenter s).add ⟨superK s, -(superK s)⟩] ∧
    ∀ p ∈ s, PointInTriangle
      ((superCenter s).add ⟨-(superK s), -(superK s)⟩)
      ((superCenter s).add ⟨0, superK s⟩)
      ((superCenter s).add ⟨superK s, -(superK s)⟩) p := by
  constructor
  · unfold SuperTriangle
    rw [if_neg (by omega)]
    dsimp only
    rw [if_neg (by omega)]
    rfl
  · intro p hp
    obtain ⟨hpx1, hpy1⟩ := v2SetMin_le s p hp
    obtain ⟨hpx2, hpy2⟩ := le_v2SetMax s p hp
    have hkdef : superK s
        = max ((v2SetMax s).x - (v2SetMin s).x)
            ((v2SetMax s).y - (v2SetMin s).y) * 2 := rfl
    have hwk : (v2SetMax s).x - (v2SetMin s).x ≤ superK s / 2 := by
      have h1 := le_max_left ((v2SetMax s).x - (v2SetMin s).x)
        ((v2SetMax s).y - (v2SetMin s).y)
      linarith
    have hhk : (v2SetMax s).y - (v2SetMin s).y ≤ superK s / 2 := by
      have h1 := le_max_right ((v2SetMax s).x - (v2SetMin s).x)
        ((v2SetMax s).y - (v2SetMin s).y)
      linarith
    have hk0 : 0 ≤ superK s := by linarith
    have hcx : (superCenter s).x = ((v2SetMin s).x + (v2SetMax s).x) / 2 := rfl
    have hcy : (superCenter s).y = ((v2SetMin s).y + (v2SetMax s).y) / 2 := rfl
    obtain ⟨hf1, hf2, hf3⟩ :=
      superTriangle_cross_formulas (superCenter s) (superK s) p
    left
    refine ⟨?_, ?_, ?_⟩
    · rw [hf1]
      refine mul_nonpos_iff.mpr (Or.inl ⟨hk0, ?_⟩)
      rw [hcx, hcy]
      linarith
    · rw [hf2]
      refine mul_nonpos_iff.mpr (Or.inl ⟨hk0, ?_⟩)
      rw [hcx, hcy]
      linarith
    · rw [hf3]
      have h1 : 0 ≤ (p.y - (superCenter s).y) + superK s := by
        rw [hcy]
        linarith
      nlinarith [mul_nonneg hk0 h1]

/-- C4 witness: the two-point input `(0,0), (4,2)` gets the predicted
super triangle and both points are inside it. -/
theorem superTriangle_encloses_witness :
    SuperTriangle [⟨0, 0⟩, ⟨4, 2⟩] = .ok
      [(superCenter [⟨0, 0⟩, ⟨4, 2⟩]).add
        ⟨-(superK [⟨0, 0⟩, ⟨4, 2⟩]), -(superK [⟨0, 0⟩, ⟨4, 2⟩])⟩,
       (superCenter [⟨0, 0⟩, ⟨4, 2⟩]).add ⟨0, superK [⟨0, 0⟩, ⟨4, 2⟩]⟩,
       (superCenter [⟨0, 0⟩, ⟨4, 2⟩]).add
        ⟨superK [⟨0, 0⟩, ⟨4, 2⟩], -(superK [⟨0, 0⟩, ⟨4, 2⟩])⟩] ∧
    PointInTriangle
      ((superCenter [⟨0, 0⟩, ⟨4, 2⟩]).add
        ⟨-(superK [⟨0, 0⟩, ⟨4, 2⟩]), -(superK [⟨0, 0⟩, ⟨4, 2⟩])⟩)
      ((superCenter [⟨0, 0⟩, ⟨4, 2⟩]).add ⟨0, superK [⟨0, 0⟩, ⟨4, 2⟩]⟩)
      ((superCenter [⟨0, 0⟩, ⟨4, 2⟩]).add
        ⟨superK [⟨0, 0⟩, ⟨4, 2⟩], -(superK [⟨0, 0⟩, ⟨4, 2⟩])⟩) ⟨0, 0⟩ := by
  have h := superTriangle_encloses [⟨0, 0⟩, ⟨4, 2⟩] (by simp)
  exact ⟨h.1, h.2 ⟨0, 0⟩ (by simp)⟩

/-! Lemmas on the edge-cancellation scan, for C6. -/

/-- Reading a position after setting it. -/
theorem getD_set_self {α : Type} (es : List α) (i : ℕ) (v d : α)
    (h : i < es.length) : (es.set i v).getD i d = v := by
  simp [List.getD_eq_getElem?_getD, List.getElem?_set, h]

/-- Reading a position after setting a different one. -/
theorem getD_set_ne {α : Type} (es : List α) (i j : ℕ) (v d : α)
    (h : i ≠ j) : (es.set i v).getD j d = es.getD j d := by
  simp [List.getD_eq_getElem?_getD, List.getElem?_set, h]

/-- Reading a position of a list out of range yields the default. -/
theorem getD_out_of_range (es : List EdgeI) (i : ℕ) (d : EdgeI)
    (h : es.length ≤ i) : es.getD i d = d := by
  rw [List.getD_eq_getElem?_getD, List.getElem?_eq_none h]
  rfl

/-- Writing the sentinel to two positions leaves every position either
unchanged or holding the sentinel. -/
theorem getD_double_set (es : List EdgeI) (a b i : ℕ) :
    ((es.set a ⟨-1, -1⟩).set b ⟨-1, -1⟩).getD i default = es.getD i default ∨
    ((es.set a ⟨-1, -1⟩).set b ⟨-1, -1⟩).getD i default = ⟨-1, -1⟩ := by
  by_cases hi : i < es.length
  · by_cases hib : i = b
    · subst hib
      right
      rw [getD_set_self]
      simpa [List.length_set] using hi
    · rw [getD_set_ne _ _ _ _ _ (fun hh => hib hh.symm)]
      by_cases hia : i = a
      · subst hia
        right
        rw [getD_set_self _ _ _ _ hi]
      · left
        rw [getD_set_ne _ _ _ _ _ (fun hh => hia hh.symm)]
  · left
    rw [getD_out_of_range _ _ _ (by simpa [List.length_set] using Nat.le_of_not_lt hi),
      getD_out_of_range _ _ _ (Nat.le_of_not_lt hi)]

/-- A comparison step writes nothing but the sentinel: each position
either keeps its value or becomes `(-1,-1)`. -/
theorem cancelStep_getD (es : List EdgeI) (j k i : ℕ) :
    (cancelStep es j k).getD i default = es.getD i default ∨
    (cancelStep es j k).getD i default = ⟨-1, -1⟩ := by
  unfold cancelStep
  dsimp only
  split
  · split
    · rcases getD_double_set ((es.set j ⟨-1, -1⟩).set k ⟨-1, -1⟩) j k i with h1 | h1
      · rw [h1]
        exact getD_double_set es j k i
      · right
        exact h1
    · exact getD_double_set es j k i
  · split
    · exact getD_double_set es j k i
    · left
      rfl

/-- The sentinel is stable under a comparison step. -/
theorem cancelStep_sentinel (es : List EdgeI) (j k i : ℕ)
    (h : es.getD i default = ⟨-1, -1⟩) :
    (cancelStep es j k).getD i default = ⟨-1, -1⟩ := by
  rcases cancelStep_getD es j k i with h1 | h1
  · rw [h1, h]
  · exact h1

/-- The inner loop writes nothing but the sentinel. -/
theorem cancelInner_getD (j : ℕ) (fuel : ℕ) (es : List EdgeI) (k i : ℕ) :
    (cancelInner j fuel es k).getD i default = es.getD i default ∨
    (cancelInner j fuel es k).getD i default = ⟨-1, -1⟩ := by
  induction fuel generalizing es k with
  | zero => left; rfl
  | succ fuel ih =>
    rw [cancelInner]
    split
    · rcases ih (cancelStep es j k) (k + 1) with h1 | h1
      · rw [h1]
        exact cancelStep_getD es j k i
      · right
        exact h1
    · left
      rfl

/-- The sentinel is stable under the inner loop. -/
theorem cancelInner_sentinel (j : ℕ) (fuel : ℕ) (es : List EdgeI) (k i : ℕ)
    (h : es.getD i default = ⟨-1, -1⟩) :
    (cancelInner j fuel es k).getD i default = ⟨-1, -1⟩ := by
  rcases cancelInner_getD j fuel es k i with h1 | h1
  · rw [h1, h]
  · exact h1

/-- The outer loop writes nothing but the sentinel. -/
theorem cancelOuter_getD (fuel : ℕ) (es : List EdgeI) (j i : ℕ) :
    (cancelOuter fuel es j).getD i default = es.getD i default ∨
    (cancelOuter fuel es j).getD i default = ⟨-1, -1⟩ := by
  induction fuel generalizing es j with
  | zero => left; rfl
  | succ fuel ih =>
    rw [cancelOuter]
    split
    · rcases ih (cancelInner j es.length es (j + 1)) (j + 1) with h1 | h1
      · rw [h1]
        exact cancelInner_getD j es.length es (j + 1) i
      · right
        exact h1
    · left
      rfl

/-- The sentinel is stable under the outer loop. -/
theorem cancelOuter_sentinel (fuel : ℕ) (es : List EdgeI) (j i : ℕ)
    (h : es.getD i default = ⟨-1, -1⟩) :
    (cancelOuter fuel es j).getD i default = ⟨-1, -1⟩ := by
  rcases cancelOuter_getD fuel es j i with h1 | h1
  · rw [h1, h]
  · exact h1

/-- When the values actually compared at `(j, k)` match, the comparison
step overwrites both with the sentinel. -/
theorem cancelStep_marks (es : List EdgeI) (j k : ℕ) (hjk : j ≠ k)
    (hj : j < es.length) (hk : k < es.length)
    (hm : matchEdges (es.getD j default) (es.getD k default)) :
    (cancelStep es j k).getD j default = ⟨-1, -1⟩ ∧
    (cancelStep es j k).getD k default = ⟨-1, -1⟩ := by
  have hsent : ∀ f : List EdgeI, j < f.length → k < f.length →
      (((f.set j ⟨-1, -1⟩).set k ⟨-1, -1⟩).getD j default = ⟨-1, -1⟩ ∧
       ((f.set j ⟨-1, -1⟩).set k ⟨-1, -1⟩).getD k default = ⟨-1, -1⟩) := by
    intro f hjf hkf
    constructor
    · rw [getD_set_ne _ _ _ _ _ (fun hh => hjk hh.symm),
        getD_set_self _ _ _ _ hjf]
    · rw [getD_set_self]
      simpa [List.length_set] using hkf
  unfold cancelStep
  dsimp only
  by_cases hrev : (es.getD j default).e0 = (es.getD k default).e1 ∧
      (es.getD j default).e1 = (es.getD k default).e0
  · rw [if_pos hrev]
    obtain ⟨h1, h2⟩ := hsent es hj hk
    rw [if_pos (by rw [h1, h2]; exact ⟨rfl, rfl⟩)]
    exact hsent _ (by simpa [List.length_set] using hj)
      (by simpa [List.length_set] using hk)
  · rw [if_neg hrev]
    have hdup : (es.getD j default).e0 = (es.getD k default).e0 ∧
        (es.getD j default).e1 = (es.getD k default).e1 := by
      rcases hm with hm | hm
      · exact absurd hm hrev
      · exact hm
    rw [if_pos hdup]
    exact hsent es hj hk

/-- Inner-loop pair property: a matching pair `(j, k)` with `k` still to
be visited ends with at least one side invalidated. -/
theorem cancelInner_pair (fuel : ℕ) (j : ℕ) (es : List EdgeI) (k0 k : ℕ)
    (hjk : j < k) (hk0 : k0 ≤ k) (hk : k < es.length)
    (hfuel : es.length ≤ k0 + fuel)
    (hm : matchEdges (es.getD j default) (es.getD k default)) :
    (cancelInner j fuel es k0).getD j default = ⟨-1, -1⟩ ∨
    (cancelInner j fuel es k0).getD k default = ⟨-1, -1⟩ := by
  induction fuel generalizing es k0 with
  | zero => omega
  | succ fuel ih =>
    rw [cancelInner]
    split
    · by_cases hkk : k0 = k
      · subst hkk
        obtain ⟨h1, _⟩ := cancelStep_marks es j k0 (by omega) (by omega) hk hm
        left
        exact cancelInner_sentinel j fuel _ (k0 + 1) j h1
      · rcases cancelStep_getD es j k0 j with hj1 | hj1
        · rcases cancelStep_getD es j k0 k with hk1 | hk1
          · exact ih (cancelStep es j k0) (k0 + 1) (by omega)
              (by rw [cancelStep_length]; exact hk)
              (by rw [cancelStep_length]; omega)
              (by rw [hj1, hk1]; exact hm)
          · right
            exact cancelInner_sentinel j fuel _ (k0 + 1) k hk1
        · left
          exact cancelInner_sentinel j fuel _ (k0 + 1) j hj1
    · omega

/-- Outer-loop pair property: a matching pair `(j, k)` of the original
buffer ends with at least one side invalidated. -/
theorem cancelOuter_pair (fuel : ℕ) (es : List EdgeI) (j0 j k : ℕ)
    (hjk : j < k) (hj0 : j0 ≤ j) (hk : k < es.length)
    (hfuel : es.length ≤ j0 + fuel + 1)
    (hm : matchEdges (es.getD j default) (es.getD k default)) :
    (cancelOuter fuel es j0).getD j default = ⟨-1, -1⟩ ∨
    (cancelOuter fuel es j0).getD k default = ⟨-1, -1⟩ := by
  induction fuel generalizing es j0 with
  | zero => omega
  | succ fuel ih =>
    rw [cancelOuter]
    split
    · by_cases hjj : j0 = j
      · subst hjj
        rcases cancelInner_pair es.length j0 es (j0 + 1) k hjk (by omega) hk
            (by omega) hm with h1 | h1
        · left
          exact cancelOuter_sentinel fuel _ (j0 + 1) j0 h1
        · right
          exact cancelOuter_sentinel fuel _ (j0 + 1) k h1
      · rcases cancelInner_getD j0 es.length es (j0 + 1) j with hj1 | hj1
        · rcases cancelInner_getD j0 es.length es (j0 + 1) k with hk1 | hk1
          · exact ih (cancelInner j0 es.length es (j0 + 1)) (j0 + 1) (by omega)
              (by rw [cancelInner_length]; exact hk)
              (by rw [cancelInner_length]; omega)
              (by rw [hj1, hk1]; exact hm)
          · right
            exact cancelOuter_sentinel fuel _ (j0 + 1) k hk1
        · left
          exact cancelOuter_sentinel fuel _ (j0 + 1) j hj1
    · omega

/-- C6 counterexample.  The buffer `[(1,2), (2,1), (1,2)]` has a
duplicate pair at positions 0 and 2, yet after the scan position 2
still holds `(1,2)`: only positions 0 and 1 (the reverse pair compared
first) are invalidated, so the claim's "both are marked, for every
buffer content including multiplicity above two" fails. -/
theorem cancellation_misses_repeated_edge :
    matchEdges (([⟨1, 2⟩, ⟨2, 1⟩, ⟨1, 2⟩] : List EdgeI).getD 0 default)
      (([⟨1, 2⟩, ⟨2, 1⟩, ⟨1, 2⟩] : List EdgeI).getD 2 default) ∧
    (cancelOuter 3 [⟨1, 2⟩, ⟨2, 1⟩, ⟨1, 2⟩] 0).getD 2 default = ⟨1, 2⟩ ∧
    (⟨1, 2⟩ : EdgeI) ≠ ⟨-1, -1⟩ := by
  refine ⟨Or.inr ⟨rfl, rfl⟩, by decide, by decide⟩

/-- C6 amended.  After the pairwise scan, whenever two buffered edges at
distinct positions are exact reverse pairs or exact duplicate pairs, at
least one of the two positions holds the sentinel `(-1,-1)`; both do
whenever neither value was already overwritten by an earlier matching
comparison (the scan compares current values, so with an edge class
occurring more than twice a later matching partner can survive). -/
theorem cancellation_invalidates_matching (es : List EdgeI) (j k : ℕ)
    (hjk : j < k) (hk : k < es.length)
    (hm : matchEdges (es.getD j default) (es.getD k default)) :
    (cancelOuter es.length es 0).getD j default = ⟨-1, -1⟩ ∨
    (cancelOuter es.length es 0).getD k default = ⟨-1, -1⟩ :=
  cancelOuter_pair es.length es 0 j k hjk (by omega) hk (by omega) hm

/-- C6 amended witness: in the buffer `[(1,2), (3,4), (2,1)]` the
reverse pair at positions 0 and 2 is cancelled. -/
theorem cancellation_invalidates_matching_witness :
    (cancelOuter 3 [⟨1, 2⟩, ⟨3, 4⟩, ⟨2, 1⟩] 0).getD 0 default = ⟨-1, -1⟩ ∨
    (cancelOuter 3 [⟨1, 2⟩, ⟨3, 4⟩, ⟨2, 1⟩] 0).getD 2 default = ⟨-1, -1⟩ :=
  cancellation_invalidates_matching [⟨1, 2⟩, ⟨3, 4⟩, ⟨2, 1⟩] 0 2
    (by omega) (by decide) (Or.inl ⟨rfl, rfl⟩)

/-! Lemmas on the triangle/done bookkeeping, for C10 and C5. -/

/-- The cavity scan preserves the lengths of both parallel lists. -/
theorem scanLoop_lengths (vs : List V2) (v : V2) (fuel : ℕ)
    (ts : List TriangleI) (done : List Bool) (nt j : ℕ) (es : List EdgeI) :
    (scanLoop vs v fuel ts done nt j es).1.length = ts.length ∧
    (scanLoop vs v fuel ts done nt j es).2.1.length = done.length := by
  induction fuel generalizing ts done nt j es with
  | zero => exact ⟨rfl, rfl⟩
  | succ fuel ih =>
    rw [scanLoop]
    dsimp only
    split
    · split
      · exact ih ts done nt (j + 1) es
      · split
        · obtain ⟨h1, h2⟩ := ih _ _ (nt - 1) j _
          exact ⟨by rw [h1, List.length_set],
            by rw [h2, List.length_set, List.length_set]⟩
        · obtain ⟨h1, h2⟩ := ih ts _ nt (j + 1) es
          exact ⟨h1, by rw [h2, List.length_set]⟩
    · exact ⟨rfl, rfl⟩

/-- One insertion step keeps the triangle and done lists the same
length. -/
theorem insertPoint_length (vs : List V2) (st : List TriangleI × List Bool)
    (i : ℕ) (h : st.1.length = st.2.length) :
    (insertPoint vs st i).1.length = (insertPoint vs st i).2.length := by
  unfold insertPoint
  dsimp only
  obtain ⟨h1, h2⟩ := scanLoop_lengths vs (vs.getD i default) st.1.length
    st.1 st.2 st.1.length 0 []
  have hlen : ∀ (es : List EdgeI) (st2 : List TriangleI × List Bool),
      st2.1.length = st2.2.length →
      ((es.foldl (fun st2 e =>
          if e.e0 < 0 ∨ e.e1 < 0 then st2
          else (st2.1 ++ [⟨e.e0, e.e1, (i : ℤ)⟩], st2.2 ++ [false])) st2)).1.length
        = ((es.foldl (fun st2 e =>
          if e.e0 < 0 ∨ e.e1 < 0 then st2
          else (st2.1 ++ [⟨e.e0, e.e1, (i : ℤ)⟩], st2.2 ++ [false])) st2)).2.length := by
    intro es
    induction es with
    | nil => intro st2 h2'; exact h2'
    | cons e es ih =>
      intro st2 h2'
      rw [List.foldl_cons]
      apply ih
      split
      · exact h2'
      · simp [h2']
  apply hlen
  simp only [List.length_take]
  rw [h1, h2, h]

/-- C10.  The active triangle list and the done-flag list evolve in
lockstep: the seed pairs one triangle with one flag, the cavity scan
(which swap-removes from both lists at the same slot) preserves both
lengths, one full insertion step (scan, truncation to the survivor
count, appending a triangle and a fresh flag together) preserves length
equality, and hence every state reached by the insertion loop has
`ts.length = done.length`, so `done[j]` is the flag of triangle
`ts[j]`. -/
theorem active_set_lockstep :
    (∀ n : ℕ, ([(⟨(n : ℤ), (n : ℤ) + 1, (n : ℤ) + 2⟩ : TriangleI)]).length
      = [false].length) ∧
    (∀ (vs : List V2) (v : V2) (fuel : ℕ) (ts : List TriangleI)
      (done : List Bool) (nt j : ℕ) (es : List EdgeI),
      ts.length = done.length →
      (scanLoop vs v fuel ts done nt j es).1.length
        = (scanLoop vs v fuel ts done nt j es).2.1.length) ∧
    (∀ (vs : List V2) (st : List TriangleI × List Bool) (i : ℕ),
      st.1.length = st.2.length →
      (insertPoint vs st i).1.length = (insertPoint vs st i).2.length) ∧
    (∀ (vs : List V2) (n : ℕ),
      ((List.range n).foldl (fun st i => insertPoint vs st i)
        ([⟨(n : ℤ), (n : ℤ) + 1, (n : ℤ) + 2⟩], [false])).1.length
      = ((List.range n).foldl (fun st i => insertPoint vs st i)
        ([⟨(n : ℤ), (n : ℤ) + 1, (n : ℤ) + 2⟩], [false])).2.length) := by
  refine ⟨fun _ => rfl, ?_, insertPoint_length, ?_⟩
  · intro vs v fuel ts done nt j es h
    obtain ⟨h1, h2⟩ := scanLoop_lengths vs v fuel ts done nt j es
    rw [h1, h2, h]
  · intro vs n
    have hgen : ∀ (l : List ℕ) (st : List TriangleI × List Bool),
        st.1.length = st.2.length →
        (l.foldl (fun st i => insertPoint vs st i) st).1.length
          = (l.foldl (fun st i => insertPoint vs st i) st).2.length := by
      intro l
      induction l with
      | nil => intro st h; exact h
      | cons a l ih =>
        intro st h
        rw [List.foldl_cons]
        exact ih _ (insertPoint_length vs st a h)
    exact hgen (List.range n) _ rfl

/-- C10 witness: a concrete insertion step preserves the pairing. -/
theorem active_set_lockstep_witness :
    (insertPoint [] ([⟨0, 1, 2⟩], [false]) 0).1.length
      = (insertPoint [] ([⟨0, 1, 2⟩], [false]) 0).2.length :=
  active_set_lockstep.2.2.1 [] ([⟨0, 1, 2⟩], [false]) 0 rfl

/-! Invariant lemmas for C5. -/

/-- An in-range defaulted lookup is a member of the list. -/
theorem getD_mem {α : Type} [Inhabited α] (l : List α) (a : ℕ)
    (h : a < l.length) : l.getD a default ∈ l := by
  rw [List.getD_eq_getElem l default h]
  exact List.getElem_mem h

/-- The cavity scan never invents triangles: the surviving count is
monotone and every triangle of the output list was in the input list. -/
theorem scanLoop_state (vs : List V2) (v : V2) (fuel : ℕ)
    (ts : List TriangleI) (done : List Bool) (nt j : ℕ) (es : List EdgeI)
    (h : nt ≤ ts.length) :
    (scanLoop vs v fuel ts done nt j es).2.2.1 ≤ nt ∧
    (∀ x ∈ (scanLoop vs v fuel ts done nt j es).1, x ∈ ts) := by
  induction fuel generalizing ts done nt j es with
  | zero => exact ⟨le_refl _, fun x hx => hx⟩
  | succ fuel ih =>
    rw [scanLoop]
    dsimp only
    split
    · split
      · exact ih ts done nt (j + 1) es h
      · split
        · rename_i hj _ _
          have hnt1 : nt - 1 < ts.length := by omega
          obtain ⟨ha, hb⟩ := ih (ts.set j (ts.getD (nt - 1) default)) _ (nt - 1) j _
            (by rw [List.length_set]; omega)
          refine ⟨le_trans ha (by omega), fun x hx => ?_⟩
          rcases List.mem_or_eq_of_mem_set (hb x hx) with h1 | h1
          · exact h1
          · rw [h1]
            exact getD_mem ts (nt - 1) hnt1
        · exact ih ts _ nt (j + 1) es h
    · exact ⟨le_refl _, fun x hx => hx⟩

/-- Edges buffered by the cavity scan come from scanned triangles: if
every input triangle satisfies `P` and every already-buffered edge
satisfies `Q`, and `P` implies `Q` for a triangle's three directed
edges, then every buffered edge satisfies `Q`. -/
theorem scanLoop_es_inv (P : TriangleI → Prop) (Q : EdgeI → Prop)
    (hPQ : ∀ t, P t → Q ⟨t.i0, t.i1⟩ ∧ Q ⟨t.i1, t.i2⟩ ∧ Q ⟨t.i2, t.i0⟩)
    (vs : List V2) (v : V2) (fuel : ℕ) :
    ∀ (ts : List TriangleI) (done : List Bool) (nt j : ℕ) (es : List EdgeI),
    nt ≤ ts.length → (∀ t ∈ ts, P t) → (∀ e ∈ es, Q e) →
    ∀ e ∈ (scanLoop vs v fuel ts done nt j es).2.2.2, Q e := by
  induction fuel with
  | zero => intro ts done nt j es _ _ hes; exact hes
  | succ fuel ih =>
    intro ts done nt j es h hts hes
    rw [scanLoop]
    dsimp only
    split
    · split
      · exact ih ts done nt (j + 1) es h hts hes
      · split
        · rename_i hj _ _
          have hmem : ts.getD j default ∈ ts := getD_mem ts j (by omega)
          have hnt1 : nt - 1 < ts.length := by omega
          apply ih (ts.set j (ts.getD (nt - 1) default)) _ (nt - 1) j
          · rw [List.length_set]; omega
          · intro t ht
            rcases List.mem_or_eq_of_mem_set ht with h1 | h1
            · exact hts t h1
            · rw [h1]
              exact hts _ (getD_mem ts (nt - 1) hnt1)
          · intro e he
            rcases List.mem_append.mp he with h1 | h1
            · exact hes e h1
            · obtain ⟨q1, q2, q3⟩ := hPQ _ (hts _ hmem)
              simp only [List.mem_cons, List.not_mem_nil, or_false] at h1
              rcases h1 with rfl | rfl | rfl
              · exact q1
              · exact q2
              · exact q3
        · exact ih ts _ nt (j + 1) es h hts hes
    · exact hes

/-- A comparison step writes nothing but the sentinel (membership
form). -/
theorem cancelStep_mem (es : List EdgeI) (j k : ℕ) (x : EdgeI)
    (hx : x ∈ cancelStep es j k) : x ∈ es ∨ x = ⟨-1, -1⟩ := by
  have hdouble : ∀ (f : List EdgeI) (a b : ℕ),
      x ∈ (f.set a ⟨-1, -1⟩).set b ⟨-1, -1⟩ → x ∈ f ∨ x = ⟨-1, -1⟩ := by
    intro f a b hm
    rcases List.mem_or_eq_of_mem_set hm with hm | hm
    · rcases List.mem_or_eq_of_mem_set hm with hm | hm
      · exact Or.inl hm
      · exact Or.inr hm
    · exact Or.inr hm
  unfold cancelStep at hx
  dsimp only at hx
  split at hx
  · split at hx
    · rcases hdouble _ _ _ hx with h1 | h1
      · exact hdouble _ _ _ h1
      · exact Or.inr h1
    · exact hdouble _ _ _ hx
  · split at hx
    · exact hdouble _ _ _ hx
    · exact Or.inl hx

/-- The inner cancellation loop writes nothing but the sentinel
(membership form). -/
theorem cancelInner_mem (j fuel : ℕ) :
    ∀ (es : List EdgeI) (k : ℕ) (x : EdgeI),
    x ∈ cancelInner j fuel es k → x ∈ es ∨ x = ⟨-1, -1⟩ := by
  induction fuel with
  | zero => intro es k x hx; exact Or.inl hx
  | succ fuel ih =>
    intro es k x hx
    rw [cancelInner] at hx
    split at hx
    · rcases ih (cancelStep es j k) (k + 1) x hx with h1 | h1
      · exact cancelStep_mem es j k x h1
      · exact Or.inr h1
    · exact Or.inl hx

/-- The outer cancellation loop writes nothing but the sentinel
(membership form). -/
theorem cancelOuter_mem (fuel : ℕ) :
    ∀ (es : List EdgeI) (j : ℕ) (x : EdgeI),
    x ∈ cancelOuter fuel es j → x ∈ es ∨ x = ⟨-1, -1⟩ := by
  induction fuel with
  | zero => intro es j x hx; exact Or.inl hx
  | succ fuel ih =>
    intro es j x hx
    rw [cancelOuter] at hx
    split at hx
    · rcases ih (cancelInner j es.length es (j + 1)) (j + 1) x hx with h1 | h1
      · exact cancelInner_mem j es.length es (j + 1) x h1
      · exact Or.inr h1
    · exact Or.inl hx

/-- One insertion step preserves triangle validity, advancing the index
bound: survivors were valid before, and each new triangle joins a
buffered (non-sentinel) edge with the fresh index `i`. -/
theorem insertPoint_inv (vs : List V2) (n i : ℕ) (hin : i < n)
    (st : List TriangleI × List Bool) (hts : ∀ t ∈ st.1, TriOK n i t) :
    ∀ t ∈ (insertPoint vs st i).1, TriOK n (i + 1) t := by
  have hmono : ∀ t, TriOK n i t → TriOK n (i + 1) t := by
    intro t ht
    obtain ⟨d1, d2, d3, x1, x2, x3⟩ := ht
    refine ⟨d1, d2, d3, ?_, ?_, ?_⟩ <;>
      [rcases x1 with h1 | h1; rcases x2 with h1 | h1; rcases x3 with h1 | h1] <;>
      first
        | exact Or.inl ⟨h1.1, by omega⟩
        | exact Or.inr h1
  have hPQ : ∀ t, TriOK n i t →
      EdgeOK n i ⟨t.i0, t.i1⟩ ∧ EdgeOK n i ⟨t.i1, t.i2⟩ ∧ EdgeOK n i ⟨t.i2, t.i0⟩ := by
    intro t ht
    obtain ⟨d1, d2, d3, x1, x2, x3⟩ := ht
    exact ⟨⟨d1, x1, x2⟩, ⟨d2, x2, x3⟩, ⟨fun hh => d3 hh.symm, x3, x1⟩⟩
  unfold insertPoint
  dsimp only
  have hsub := (scanLoop_state vs (vs.getD i default) st.1.length st.1 st.2
    st.1.length 0 [] (le_refl _)).2
  have hesQ : ∀ e ∈ (scanLoop vs (vs.getD i default) st.1.length st.1 st.2
      st.1.length 0 []).2.2.2, EdgeOK n i e :=
    scanLoop_es_inv (TriOK n i) (EdgeOK n i) hPQ vs (vs.getD i default)
      st.1.length st.1 st.2 st.1.length 0 [] (le_refl _) hts (by simp)
  have hfold : ∀ (es : List EdgeI) (st2 : List TriangleI × List Bool),
      (∀ t ∈ st2.1, TriOK n (i + 1) t) →
      (∀ e ∈ es, EdgeOK n i e ∨ e = ⟨-1, -1⟩) →
      ∀ t ∈ (es.foldl (fun st2 e =>
          if e.e0 < 0 ∨ e.e1 < 0 then st2
          else (st2.1 ++ [⟨e.e0, e.e1, (i : ℤ)⟩], st2.2 ++ [false])) st2).1,
        TriOK n (i + 1) t := by
    intro es
    induction es with
    | nil => intro st2 h2 _ t ht; exact h2 t ht
    | cons e es ih =>
      intro st2 h2 hes t ht
      rw [List.foldl_cons] at ht
      refine ih _ ?_ (fun f hf => hes f (List.mem_cons_of_mem e hf)) t ht
      split
      · exact h2
      · rename_i hneg
        intro x hx
        rcases List.mem_append.mp hx with h1 | h1
        · exact h2 x h1
        · simp only [List.mem_cons, List.not_mem_nil, or_false] at h1
          subst h1
          rcases hes e (List.mem_cons_self e es) with hok | hsent
        -- a sentinel edge would have a negative endpoint and be skipped
          · obtain ⟨hd, hx1, hx2⟩ := hok
            push_neg at hneg
            refine ⟨hd, ?_, ?_, ?_, ?_, ?_⟩
            · dsimp only
              rcases hx2 with h1 | h1
              · omega
              · omega
            · dsimp only
              rcases hx1 with h1 | h1
              · omega
              · omega
            · dsimp only
              rcases hx1 with h1 | h1
              · exact Or.inl ⟨h1.1, by omega⟩
              · exact Or.inr h1
            · dsimp only
              rcases hx2 with h1 | h1
              · exact Or.inl ⟨h1.1, by omega⟩
              · exact Or.inr h1
            · dsimp only
              exact Or.inl ⟨by omega, by omega⟩
          · subst hsent
            simp at hneg
  apply hfold
  · intro t ht
    exact hmono t (hts t (hsub t (List.mem_of_mem_take ht)))
  · intro e he
    rcases cancelOuter_mem _ _ _ e he with h1 | h1
    · exact Or.inl (hesQ e h1)
    · exact Or.inr h1

/-- Every state of the insertion loop contains only valid triangles. -/
theorem insertLoop_inv (vs : List V2) (n : ℕ) :
    ∀ m, m ≤ n →
    ∀ t ∈ ((List.range m).foldl (fun st i => insertPoint vs st i)
      ([⟨(n : ℤ), (n : ℤ) + 1, (n : ℤ) + 2⟩], [false])).1, TriOK n m t := by
  intro m
  induction m with
  | zero =>
    intro _ t ht
    simp only [List.range_zero, List.foldl_nil, List.mem_singleton] at ht
    subst ht
    unfold TriOK IdxOK
    dsimp only
    exact ⟨by omega, by omega, by omega,
      Or.inr (by omega), Or.inr (by omega), Or.inr (by omega)⟩
  | succ m ih =>
    intro hm t ht
    rw [List.range_succ, List.foldl_append, List.foldl_cons, List.foldl_nil] at ht
    exact insertPoint_inv vs n m (by omega) _ (ih (by omega)) t ht

/-- Finalization never invents triangles: length is preserved, the
survivor count shrinks, membership is preserved. -/
theorem finalLoop_state (n fuel : ℕ) :
    ∀ (ts : List TriangleI) (nt j : ℕ), nt ≤ ts.length →
    (finalLoop n fuel ts nt j).1.length = ts.length ∧
    (finalLoop n fuel ts nt j).2 ≤ nt ∧
    (∀ x ∈ (finalLoop n fuel ts nt j).1, x ∈ ts) := by
  induction fuel with
  | zero => intro ts nt j _; exact ⟨rfl, le_refl _, fun x hx => hx⟩
  | succ fuel ih =>
    intro ts nt j h
    rw [finalLoop]
    dsimp only
    split
    · split
      · rename_i hj _
        have hnt1 : nt - 1 < ts.length := by omega
        obtain ⟨h1, h2, h3⟩ := ih (ts.set j (ts.getD (nt - 1) default)) (nt - 1) j
          (by rw [List.length_set]; omega)
        refine ⟨by rw [h1, List.length_set], by omega, fun x hx => ?_⟩
        rcases List.mem_or_eq_of_mem_set (h3 x hx) with h4 | h4
        · exact h4
        · rw [h4]
          exact getD_mem ts (nt - 1) hnt1
      · exact ih ts nt (j + 1) h
    · exact ⟨rfl, le_refl _, fun x hx => hx⟩

/-- Every slot below the survivor count passes the super-triangle
removal test once finalization ends. -/
theorem finalLoop_passes (n fuel : ℕ) :
    ∀ (ts : List TriangleI) (nt j : ℕ), nt ≤ ts.length → nt - j ≤ fuel →
    (∀ p, p < j → ¬ BadTri n (ts.getD p default)) →
    ∀ p, p < (finalLoop n fuel ts nt j).2 →
      ¬ BadTri n ((finalLoop n fuel ts nt j).1.getD p default) := by
  induction fuel with
  | zero =>
    intro ts nt j _ hfuel hbefore p hp
    rw [finalLoop] at hp ⊢
    exact hbefore p (by omega)
  | succ fuel ih =>
    intro ts nt j h hfuel hbefore p hp
    rw [finalLoop] at hp ⊢
    dsimp only at hp ⊢
    by_cases hj : j < nt
    · rw [if_pos hj] at hp ⊢
      by_cases hbad : (ts.getD j default).i0 ≥ (n : ℤ) ∨
          (ts.getD j default).i1 ≥ (n : ℤ) ∨ (ts.getD j default).i2 ≥ (n : ℤ)
      · rw [if_pos hbad] at hp ⊢
        refine ih (ts.set j (ts.getD (nt - 1) default)) (nt - 1) j
          (by rw [List.length_set]; omega) (by omega) ?_ p hp
        intro q hq
        rw [getD_set_ne ts j q _ _ (by omega)]
        exact hbefore q hq
      · rw [if_neg hbad] at hp ⊢
        refine ih ts nt (j + 1) h (by omega) ?_ p hp
        intro q hq
        by_cases hqj : q = j
        · subst hqj
          exact hbad
        · exact hbefore q (by omega)
    · rw [if_neg hj] at hp ⊢
      exact hbefore p (by omega)

/-- A member of a prefix sits at some defaulted-lookup position below
the prefix length. -/
theorem mem_take_getD {α : Type} [Inhabited α] (l : List α) (m : ℕ) (x : α)
    (hx : x ∈ l.take m) : ∃ p, p < m ∧ l.getD p default = x := by
  obtain ⟨p, hp, hpx⟩ := List.getElem_of_mem hx
  have hlen : p < m ∧ p < l.length := by
    have := hp
    simp only [List.length_take] at this
    omega
  refine ⟨p, hlen.1, ?_⟩
  rw [List.getD_eq_getElem l default hlen.2, ← hpx]
  exact (List.getElem_take l).symm

/-- C5.  Every triangle returned by a successful triangulation of `n`
points has three pairwise-distinct vertex indices, each in `[0, n)`: no
super-triangle index (`≥ n`) and no sentinel or negative index
survives finalization. -/
theorem delaunay2d_indices_valid (vs0 : List V2) (ts : List TriangleI)
    (h : Delaunay2d vs0 = .ok ts) :
    ∀ t ∈ ts,
      (0 ≤ t.i0 ∧ t.i0 < (vs0.length : ℤ)) ∧
      (0 ≤ t.i1 ∧ t.i1 < (vs0.length : ℤ)) ∧
      (0 ≤ t.i2 ∧ t.i2 < (vs0.length : ℤ)) ∧
      t.i0 ≠ t.i1 ∧ t.i1 ≠ t.i2 ∧ t.i0 ≠ t.i2 := by
  unfold Delaunay2d at h
  dsimp only at h
  rcases hsup : SuperTriangle (sortByX vs0) with e | tsup
  · rw [hsup] at h
    cases h
  · rw [hsup] at h
    injection h with h
    subst h
    intro t ht
    unfold delaunayCore at ht
    dsimp only at ht
    have hstate := finalLoop_state (sortByX vs0).length
      (((List.range (sortByX vs0).length).foldl
        (fun st i => insertPoint (sortByX vs0 ++ tsup) st i)
        ([⟨((sortByX vs0).length : ℤ), ((sortByX vs0).length : ℤ) + 1,
          ((sortByX vs0).length : ℤ) + 2⟩], [false])).1.length)
      (((List.range (sortByX vs0).length).foldl
        (fun st i => insertPoint (sortByX vs0 ++ tsup) st i)
        ([⟨((sortByX vs0).length : ℤ), ((sortByX vs0).length : ℤ) + 1,
          ((sortByX vs0).length : ℤ) + 2⟩], [false])).1)
      (((List.range (sortByX vs0).length).foldl
        (fun st i => insertPoint (sortByX vs0 ++ tsup) st i)
        ([⟨((sortByX vs0).length : ℤ), ((sortByX vs0).length : ℤ) + 1,
          ((sortByX vs0).length : ℤ) + 2⟩], [false])).1.length)
      0 (le_refl _)
    have hmem : t ∈ (((List.range (sortByX vs0).length).foldl
        (fun st i => insertPoint (sortByX vs0 ++ tsup) st i)
        ([⟨((sortByX vs0).length : ℤ), ((sortByX vs0).length : ℤ) + 1,
          ((sortByX vs0).length : ℤ) + 2⟩], [false])).1) :=
      hstate.2.2 t (List.mem_of_mem_take ht)
    have htri : TriOK (sortByX vs0).length (sortByX vs0).length t :=
      insertLoop_inv (sortByX vs0 ++ tsup) (sortByX vs0).length
        (sortByX vs0).length (le_refl _) t hmem
    obtain ⟨p, hp, hpt⟩ := mem_take_getD _ _ t ht
    have hnb := finalLoop_passes (sortByX vs0).length
      (((List.range (sortByX vs0).length).foldl
        (fun st i => insertPoint (sortByX vs0 ++ tsup) st i)
        ([⟨((sortByX vs0).length : ℤ), ((sortByX vs0).length : ℤ) + 1,
          ((sortByX vs0).length : ℤ) + 2⟩], [false])).1.length)
      (((List.range (sortByX vs0).length).foldl
        (fun st i => insertPoint (sortByX vs0 ++ tsup) st i)
        ([⟨((sortByX vs0).length : ℤ), ((sortByX vs0).length : ℤ) + 1,
          ((sortByX vs0).length : ℤ) + 2⟩], [false])).1)
      (((List.range (sortByX vs0).length).foldl
        (fun st i => insertPoint (sortByX vs0 ++ tsup) st i)
        ([⟨((sortByX vs0).length : ℤ), ((sortByX vs0).length : ℤ) + 1,
          ((sortByX vs0).length : ℤ) + 2⟩], [false])).1.length)
      0 (le_refl _) (by omega) (by omega) p hp
    rw [hpt] at hnb
    obtain ⟨d1, d2, d3, x1, x2, x3⟩ := htri
    have hn : (sortByX vs0).length = vs0.length := sortByX_length vs0
    unfold BadTri at hnb
    unfold IdxOK at x1 x2 x3
    push_neg at hnb
    refine ⟨?_, ?_, ?_, d1, d2, d3⟩ <;> [skip; skip; skip] <;>
      [rcases x1 with h1 | h1; rcases x2 with h1 | h1; rcases x3 with h1 | h1] <;>
      omega

/-- C5 witness: the 3-point scenario returns the single triangle
`(0,1,2)`, whose indices are distinct and within range. -/
theorem delaunay2d_indices_valid_witness :
    ((0 : ℤ) ≤ (0 : ℤ) ∧ (0 : ℤ) < (3 : ℤ)) ∧
    ((0 : ℤ) ≤ (1 : ℤ) ∧ (1 : ℤ) < (3 : ℤ)) ∧
    ((0 : ℤ) ≤ (2 : ℤ) ∧ (2 : ℤ) < (3 : ℤ)) ∧
    (0 : ℤ) ≠ (1 : ℤ) ∧ (1 : ℤ) ≠ (2 : ℤ) ∧ (0 : ℤ) ≠ (2 : ℤ) :=
  delaunay2d_indices_valid [⟨0, 0⟩, ⟨4, 0⟩, ⟨0, 4⟩] [⟨0, 1, 2⟩]
    (by with_unfolding_all rfl) ⟨0, 1, 2⟩ (List.mem_singleton.mpr rfl)

/-! Theorems for C1. -/

/-- C1 counterexample.  On `flatCavityInput` (already sorted by x) the
run returns a triangle list containing the flat sliver `(0,2,3)`; the
input point at position 4 is not one of its vertices, yet it lies
strictly inside the sliver's genuine circumcircle by about `0.05`, far
beyond `EPSILON`: the Delaunay property fails on the code.  The sliver
survives because its y-spread is below `EPSILON`, so `Circumcenter`
reports `coincident points` and the triangle is retired as closed
instead of being tested. -/
theorem delaunay_property_fails : ¬ DelaunayHolds flatCavityInput := by
  intro h
  have hsort : sortByX flatCavityInput = flatCavityInput := by
    with_unfolding_all rfl
  have hrun : Delaunay2d flatCavityInput
      = .ok [⟨0, 3, 4⟩, ⟨1, 0, 4⟩, ⟨0, 2, 3⟩] := by
    with_unfolding_all rfl
  have hcirc : IsCircumcircle ⟨vAt (sortByX flatCavityInput) 0,
      vAt (sortByX flatCavityInput) 2, vAt (sortByX flatCavityInput) 3⟩
      flatCavityCenter flatCavityR2 := by
    rw [hsort]
    refine ⟨?_, ?_, ?_⟩ <;> with_unfolding_all rfl
  have hin : StrictlyInsideCC ((sortByX flatCavityInput).getD 4 default)
      flatCavityCenter flatCavityR2 := by
    rw [hsort]
    unfold StrictlyInsideCC
    exact of_decide_eq_true (by with_unfolding_all rfl)
  exact h _ hrun ⟨0, 2, 3⟩ (by decide) 4
    (by rw [hsort]; decide) (by decide) (by decide) (by decide)
    flatCavityCenter flatCavityR2 hcirc hin

/-- C1 amended.  The universal Delaunay property fails on the code (see
the counterexample); it does hold for the spec's concrete scenarios: the
3-point right triangle (one triangle using all three indices, so the
property is vacuous) and the 4-point square (each returned triangle's
circumcircle passes exactly through the remaining cocircular point,
which therefore is not strictly inside beyond the tolerance). -/
theorem delaunay_property_scenarios :
    DelaunayHolds [⟨0, 0⟩, ⟨4, 0⟩, ⟨0, 4⟩] ∧
    DelaunayHolds [⟨0, 0⟩, ⟨4, 0⟩, ⟨4, 4⟩, ⟨0, 4⟩] := by
  constructor
  · intro ts hts t ht m hm h0 h1 h2 q r2 _
    have hrun : Delaunay2d [⟨0, 0⟩, ⟨4, 0⟩, ⟨0, 4⟩] = .ok [⟨0, 1, 2⟩] := by
      with_unfolding_all rfl
    rw [hrun] at hts
    injection hts with hts
    subst hts
    simp only [List.mem_singleton] at ht
    subst ht
    rw [sortByX_length] at hm
    dsimp only at h0 h1 h2
    simp only [List.length_cons, List.length_nil] at hm
    omega
  · intro ts hts t ht m hm h0 h1 h2 q r2 hcirc
    have hrun : Delaunay2d [⟨0, 0⟩, ⟨4, 0⟩, ⟨4, 4⟩, ⟨0, 4⟩]
        = .ok [⟨2, 0, 3⟩, ⟨0, 1, 3⟩] := by
      with_unfolding_all rfl
    have hsort : sortByX [⟨0, 0⟩, ⟨4, 0⟩, ⟨4, 4⟩, ⟨0, 4⟩]
        = [⟨0, 0⟩, ⟨0, 4⟩, ⟨4, 0⟩, ⟨4, 4⟩] := by
      with_unfolding_all rfl
    rw [hrun] at hts
    injection hts with hts
    subst hts
    rw [sortByX_length] at hm
    simp only [List.length_cons, List.length_nil] at hm
    rw [hsort] at hcirc ⊢
    have heps : (0 : ℚ) < EPSILON := by norm_num [EPSILON]
    simp only [List.mem_cons, List.not_mem_nil, or_false] at ht
    intro hin
    unfold StrictlyInsideCC at hin
    rcases ht with rfl | rfl
    · dsimp only at h0 h1 h2
      have hm1 : m = 1 := by omega
      subst hm1
      obtain ⟨e0, e1, e2⟩ := hcirc
      have e0' : ((4 : ℚ) - q.x) ^ 2 + ((0 : ℚ) - q.y) ^ 2 = r2 := e0
      have e1' : ((0 : ℚ) - q.x) ^ 2 + ((0 : ℚ) - q.y) ^ 2 = r2 := e1
      have e2' : ((4 : ℚ) - q.x) ^ 2 + ((4 : ℚ) - q.y) ^ 2 = r2 := e2
      have hin' : ((0 : ℚ) - q.x) ^ 2 + ((4 : ℚ) - q.y) ^ 2 < r2 - EPSILON := hin
      nlinarith [e0', e1', e2', hin']
    · dsimp only at h0 h1 h2
      have hm2 : m = 2 := by omega
      subst hm2
      obtain ⟨e0, e1, e2⟩ := hcirc
      have e0' : ((0 : ℚ) - q.x) ^ 2 + ((0 : ℚ) - q.y) ^ 2 = r2 := e0
      have e1' : ((0 : ℚ) - q.x) ^ 2 + ((4 : ℚ) - q.y) ^ 2 = r2 := e1
      have e2' : ((4 : ℚ) - q.x) ^ 2 + ((4 : ℚ) - q.y) ^ 2 = r2 := e2
      have hin' : ((4 : ℚ) - q.x) ^ 2 + ((0 : ℚ) - q.y) ^ 2 < r2 - EPSILON := hin
      nlinarith [e0', e1', e2', hin']

end Sdfx
